import Mathlib

/-!
Verification development for the scikit-criteria rank-robustness core.

Matrices are embedded column-major: a matrix is a list of criterion
columns, each column listing that criterion's value for every
alternative.  This matches the axis-0 (per-criterion) orientation of
all the numpy operations in `skcriteria/madm/wprod.py`
(`np.min(..., axis=0)`, `nmtx[:, mincrits] = ...`, column-wise
normalization), and rational numbers stand for the floating point
values.
-/

/-- A criterion column: one value per alternative. -/
abbrev Col := List ℚ

/-- A decision matrix stored as a list of criterion columns. -/
abbrev Mat := List Col

/-!
## Embedding of `wprod` (src/skcriteria/madm/wprod.py, lines 63-77)

The function receives the normalized matrix `nmtx`, the criteria
direction array (`True` = MIN) and the weights.  To settle the aliasing
claim we embed numpy's buffer semantics explicitly: a heap of buffers,
with the caller's array in buffer 0 and the local variable `nmtx`
holding the index of the buffer it currently names.  `astype` always
allocates a fresh copy; slice assignment writes into the buffer the
local currently names.
-/

/-- Heap of numpy buffers: the caller's argument array is buffer 0 and
`nmtx` is the index of the buffer the local variable `nmtx` names. -/
structure NpHeap where
  bufs : List Mat
  nmtx : Nat
deriving Repr, DecidableEq

/-- Read the buffer currently named by the local `nmtx`. -/
def NpHeap.read (h : NpHeap) : Mat :=
  h.bufs.getD h.nmtx []

/-- `nmtx = nmtx.astype(...)`: allocate a fresh copy of the current
buffer and rebind the local to it (wprod.py line 68). -/
def NpHeap.astype (h : NpHeap) : NpHeap :=
  ⟨h.bufs ++ [h.read], h.bufs.length⟩

/-- `mincrits_inverted = 1.0 / nmtx[:, mincrits]` (wprod.py line 67):
the reciprocals of the columns selected by the MIN mask, as a pure read. -/
def selectMinCols : List Bool → Mat → Mat
  | b :: bs, c :: cs =>
    if b then c.map (fun x => 1 / x) :: selectMinCols bs cs
    else selectMinCols bs cs
  | _, _ => []

/-- Place replacement columns at the MIN positions of a column list,
keeping the other columns; this is the effect of the slice assignment
`nmtx[:, mincrits] = mincrits_inverted` on the written buffer's value. -/
def placeMinCols : List Bool → Mat → Mat → Mat
  | [], _, cs => cs
  | _ :: _, _, [] => []
  | true :: bs, v :: vs, _ :: cs => v :: placeMinCols bs vs cs
  | true :: bs, [], c :: cs => c :: placeMinCols bs [] cs
  | false :: bs, vs, c :: cs => c :: placeMinCols bs vs cs

/-- `nmtx[:, mincrits] = mincrits_inverted` (wprod.py line 69): in-place
write into the buffer the local `nmtx` currently names. -/
def NpHeap.writeMinCols (minimize : List Bool) (vs : Mat) (h : NpHeap) : NpHeap :=
  ⟨h.bufs.set h.nmtx (placeMinCols minimize vs h.read), h.nmtx⟩

/-- The inversion step of `wprod` as a pure value: MIN columns replaced
by their reciprocals, the rest untouched. -/
def invertCols : List Bool → Mat → Mat
  | [], cs => cs
  | _ :: _, [] => []
  | b :: bs, c :: cs =>
    (if b then c.map (fun x => 1 / x) else c) :: invertCols bs cs

/-- Lines 64-69 of wprod.py: `if MIN in ncriteria:` read the reciprocal
columns from the argument, copy via `astype`, write the reciprocals into
the copy.  Buffer 0 is the caller's `nmtx` argument throughout. -/
def wprodHeap (nmtx : Mat) (ncriteria : List Bool) : NpHeap :=
  let h0 : NpHeap := ⟨[nmtx], 0⟩
  if true ∈ ncriteria then
    let mincritsInverted := selectMinCols ncriteria h0.read
    let h1 := h0.astype
    h1.writeMinCols ncriteria mincritsInverted
  else h0

/-- Modelled from the spec: `skcriteria.rank.rankdata` is not under
`src/`; §4.1 describes competition ranking where, with `reverse=True`,
a larger score means a better (smaller) rank and equal scores share the
rank.  Position `i` gets `1 +` the number of strictly larger scores. -/
def rankdata (points : List ℚ) : List Nat :=
  points.map (fun x => 1 + (points.filter (fun y => x < y)).length)

/-- Pointwise sum of two equally long vectors. -/
def vadd (a b : List ℚ) : List ℚ := List.zipWith (· + ·) a b

/-- Lines 72-75 of wprod.py: `lmtx = np.log(nmtx)`,
`rank_mtx = np.multiply(lmtx, nweights)`, `points = np.sum(rank_mtx,
axis=1)`.  The real logarithm is passed in as an explicit function `log`
(its value is irrelevant to the claims proved here, which hold for every
`log`).  Row sums over a column-major matrix accumulate column by
column. -/
def wprodPoints (log : ℚ → ℚ) (nweights : List ℚ) (nmtx : Mat) : List ℚ :=
  (nmtx.zip nweights).foldl
    (fun acc p => vadd acc (p.1.map (fun x => log x * p.2)))
    (List.replicate (nmtx.headD []).length 0)

/-- The whole body of `wprod` (wprod.py lines 63-77), returning the rank
vector, the points and the final heap (so the caller's buffer can be
inspected). -/
def wprodRun (log : ℚ → ℚ) (nmtx : Mat) (ncriteria : List Bool)
    (nweights : List ℚ) : (List Nat × List ℚ) × NpHeap :=
  let h := wprodHeap nmtx ncriteria
  let points := wprodPoints log nweights h.read
  ((rankdata points, points), h)

/-!
## Embedding of `WeightedProduct.preprocess` (wprod.py lines 121-131)

The helpers `norm.push_negatives`, `norm.add1to0` and the `"sum"`
normalizer are not under `src/`; they are modelled from the spec and the
class docstring of `WeightedProduct` (wprod.py lines 91-100): negative
criteria are pushed up to be non-negative, a criterion column containing
a zero is incremented by 1, and the default `mnorm="sum"` divides each
column by its sum.
-/

/-- Minimum of a column (`np.min` along axis 0); numpy rejects empty
input, the `[]` case is junk guarded by non-emptiness hypotheses. -/
def colMin : Col → ℚ
  | [] => 0
  | x :: xs => xs.foldl min x

/-- Modelled from the spec: `norm.push_negatives(arr, axis=0)` is not
under `src/`; per the `WeightedProduct` docstring, a column containing a
negative value is shifted so that its minimum becomes 0. -/
def pushNegCol (col : Col) : Col :=
  if colMin col < 0 then col.map (fun x => x - colMin col) else col

/-- Modelled from the spec: `norm.push_negatives` applied per criterion
column (axis=0). -/
def push_negatives (m : Mat) : Mat := m.map pushNegCol

/-- Modelled from the spec: `norm.add1to0(arr, axis=0)` is not under
`src/`; per the `WeightedProduct` docstring, a criterion column that
contains a 0 is incremented by 1. -/
def add1to0Col (col : Col) : Col :=
  if (0 : ℚ) ∈ col then col.map (fun x => x + 1) else col

/-- Modelled from the spec: `norm.add1to0` applied per criterion column
(axis=0). -/
def add1to0 (m : Mat) : Mat := m.map add1to0Col

/-- Modelled from the spec: the default `mnorm="sum"` normalizer divides
each value by its criterion column's sum. -/
def sumNormCol (col : Col) : Col := col.map (fun x => x / col.sum)

/-- Modelled from the spec: the `"sum"` matrix normalizer applied per
criterion column (axis=0). -/
def sum_norm (m : Mat) : Mat := m.map sumNormCol

/-- The matrix part of `WeightedProduct.preprocess` (wprod.py lines
122-124): push negatives, add 1 to zero-containing columns, then
sum-normalize, all along axis 0. -/
def preprocessMtx (m : Mat) : Mat := sum_norm (add1to0 (push_negatives m))

/-!
## The Rank Invariance Checker

`skcriteria/cmp/ranks_rev/rank_inv_check.py` and its default mutation
strategy are not under `src/` (only their tests are), so the component
is modelled from spec §4.3-§4.4 and §7.  Alternatives are named by
strings; a ranker is any function from a decision matrix to a rank
result; the random stream is an explicit seeded rational stream.
-/

/-- Modelled from the spec: the decision matrix handed to the checker
(§3) — named alternatives, a column-major value matrix and a
per-criterion MIN flag. -/
structure DecisionMatrix where
  alternatives : List String
  mtx : Mat
  minimize : List Bool
deriving Repr, DecidableEq, Inhabited

/-- Modelled from the spec: a ranking (§3) — alternatives paired
positionally with positive integer ranks, plus the `rrt1` diagnostic
metadata the checker attaches (noise matrix, missing alternatives,
trial index). -/
structure RankResult where
  alternatives : List String
  values : List Nat
  extra_missing : List String := []
  extra_noise : Mat := []
  extra_iteration : Nat := 0
deriving Repr, DecidableEq, Inhabited

/-- Derived `has_ties_` flag: some rank value occurs twice. -/
def RankResult.has_ties (r : RankResult) : Bool :=
  decide (¬ r.values.Nodup)

/-- Rank of a named alternative, looked up positionally. -/
def RankResult.rankOf (r : RankResult) (a : String) : Option Nat :=
  (r.alternatives.zip r.values).lookup a

/-- Modelled from the spec: the seeded random stream (§4.3, §5).  The
numpy generator is embedded as an explicit linear-congruential stream of
rationals in `[0, 1)`, indexed by a draw counter `k`. -/
def uniform01 (seed k : Nat) : ℚ :=
  (((1103515245 * (seed + k) + 12345) % 2147483648) % 1024 : ℕ) / 1024

/-- Map a `[0, 1)` draw onto the symmetric interval `[-bound, bound]`. -/
def symNoise (bound u : ℚ) : ℚ := bound * (2 * u - 1)

/-- Modelled from the spec: the default strategy's noise matrix (§4.3)
— one independently drawn, symmetrically bounded sample per cell, each
cell consuming its own index of the seeded stream. -/
def noiseMatrix (bound : ℚ) (seed k nAlts nCrit : Nat) : Mat :=
  (List.range nCrit).map fun j =>
    (List.range nAlts).map fun i =>
      symNoise bound (uniform01 seed (k + j * nAlts + i))

/-- Modelled from the spec: `DefaultMutationStrategy.generate_mutations`
(§4.3) — add the noise matrix cell-wise to the current matrix, keeping
alternative/criterion labels; returns the mutated matrix, the applied
noise and the advanced draw counter.  The current ranking is accepted
per the capability signature but unused by the default strategy. -/
def generate_mutations (bound : ℚ) (seed k : Nat) (dm : DecisionMatrix)
    (_lastRank : RankResult) : DecisionMatrix × Mat × Nat :=
  let nAlts := dm.alternatives.length
  let nCrit := dm.mtx.length
  let noise := noiseMatrix bound seed k nAlts nCrit
  ({ dm with mtx := List.zipWith (List.zipWith (· + ·)) dm.mtx noise },
    noise, k + nCrit * nAlts)

/-- Original alternatives missing from a trial ranking, in original
order. -/
def missingOf (full : List String) (r : RankResult) : List String :=
  full.filter fun a => decide (¬ a ∈ r.alternatives)

/-- Modelled from the spec: step 2c of the `evaluate` state machine
(§4.4).  A trial ranking lacking original alternatives is fatal when
missing alternatives are not allowed; otherwise every missing
alternative is appended with the shared placeholder rank (current
tie-pool size plus one) and the missing set, noise and trial index are
recorded in the diagnostic metadata. -/
def patchMissing (full : List String) (allow : Bool) (noise : Mat)
    (iteration : Nat) (r : RankResult) : Except String RankResult :=
  let missing := missingOf full r
  if missing.isEmpty then
    .ok { r with extra_missing := [], extra_noise := noise,
                 extra_iteration := iteration }
  else if allow then
    .ok { alternatives := r.alternatives ++ missing,
          values := r.values ++ missing.map (fun _ => r.alternatives.length + 1),
          extra_missing := missing, extra_noise := noise,
          extra_iteration := iteration }
  else .error "ValueError: missing alternatives"

/-- Modelled from the spec: a duck-typed Python attribute — absent,
present but not callable, or callable with the given signature (§4.4
construction contract). -/
inductive PyAttr (α : Type) where
  | absent
  | noncallable
  | callable (f : α)

/-- Whether the duck-typed attribute is present and callable. -/
def PyAttr.isCallable {α : Type} : PyAttr α → Bool
  | .callable _ => true
  | _ => false

/-- Modelled from the spec: the checker's configuration after successful
construction (§4.4) — the validated ranker, the number of repeats, the
missing-alternative policy, the diff aggregation callable, the random
seed and the noise bound of the default strategy. -/
structure RankInvariantChecker where
  dmaker : DecisionMatrix → RankResult
  repeats : Nat
  allow_missing_alternatives : Bool
  last_diff_strategy : List ℚ → ℚ
  random_state : Nat
  noise_bound : ℚ

/-- Modelled from the spec: checker construction (§4.4, §7) — a type
error immediately at construction when the ranker has no callable
`evaluate` or `last_diff_strategy` is not callable; `evaluate` only
exists on a successfully constructed checker. -/
def mkRankInvariantChecker (dmaker : PyAttr (DecisionMatrix → RankResult))
    (last_diff_strategy : PyAttr (List ℚ → ℚ)) (repeats : Nat)
    (allow_missing_alternatives : Bool) (random_state : Nat)
    (noise_bound : ℚ) : Except String RankInvariantChecker :=
  match dmaker with
  | .callable f =>
    match last_diff_strategy with
    | .callable g =>
      .ok ⟨f, repeats, allow_missing_alternatives, g, random_state, noise_bound⟩
    | _ => .error "TypeError: last_diff_strategy must be callable"
  | _ => .error "TypeError: dmaker must implement evaluate"

/-- One recorded mutation trial: entry name, the matrix the strategy was
given, the mutated matrix, the applied noise, the trial index, the raw
ranker output and the patched ranking stored in the comparator. -/
structure Trial where
  name : String
  input_dm : DecisionMatrix
  mdm : DecisionMatrix
  noise : Mat
  iteration : Nat
  raw : RankResult
  patched : RankResult
deriving Repr, DecidableEq, Inhabited

/-- The state threaded through the trials of one `evaluate` call:
current matrix (chained mutation), most recent ranking, draw counter,
next trial index, recorded trials, and the pending fatal error if a
trial violated the protocol. -/
structure RunState where
  current : DecisionMatrix
  lastRank : RankResult
  k : Nat
  it : Nat
  trials : List Trial
  err : Option String

/-- The mutation-strategy call of one repeat (§4.4 step 2a): the
strategy receives the current matrix and the most recent ranking. -/
def stepGM (c : RankInvariantChecker) (st : RunState) :
    DecisionMatrix × Mat × Nat :=
  generate_mutations c.noise_bound c.random_state st.k st.current st.lastRank

/-- The ranker invocation of one repeat (§4.4 step 2b): the ranker runs
on the mutated matrix. -/
def stepRaw (c : RankInvariantChecker) (st : RunState) : RankResult :=
  c.dmaker (stepGM c st).1

/-- Modelled from the spec: one repeat of the `evaluate` state machine
(§4.4 step 2) — mutate the current matrix with the most recent ranking,
invoke the ranker on the mutated matrix, reconcile missing alternatives,
and append the named trial; a fatal error aborts all later repeats. -/
def RankInvariantChecker.step (c : RankInvariantChecker)
    (full : List String) (st : RunState) : RunState :=
  if st.err.isSome then st
  else
    match patchMissing full c.allow_missing_alternatives (stepGM c st).2.1
        st.it (stepRaw c st) with
    | .ok p =>
      { current := (stepGM c st).1, lastRank := p, k := (stepGM c st).2.2,
        it := st.it + 1,
        trials := st.trials ++
          [⟨"M." ++ toString st.it, st.current, (stepGM c st).1,
            (stepGM c st).2.1, st.it, stepRaw c st, p⟩],
        err := none }
    | .error e =>
      { current := (stepGM c st).1, lastRank := st.lastRank,
        k := (stepGM c st).2.2, it := st.it + 1,
        trials := st.trials ++
          [⟨"M." ++ toString st.it, st.current, (stepGM c st).1,
            (stepGM c st).2.1, st.it, stepRaw c st, stepRaw c st⟩],
        err := some e }

/-- Run `n` repeats of the state machine. -/
def RankInvariantChecker.runAux (c : RankInvariantChecker)
    (full : List String) : Nat → RunState → RunState
  | 0, st => st
  | n + 1, st => RankInvariantChecker.runAux c full n (c.step full st)

/-- The state at the start of the trial phase: the Original ranking has
been computed on the unmodified matrix (§4.4 step 1). -/
def RankInvariantChecker.initState (c : RankInvariantChecker)
    (dm : DecisionMatrix) : RunState :=
  { current := dm, lastRank := c.dmaker dm, k := 0, it := 1,
    trials := [], err := none }

/-- Modelled from the spec: the full trial phase of
`RankInvariantChecker.evaluate` (§4.4) — the Original ranking seeds the
state, then `repeats` sequential repeats run with chained mutation. -/
def RankInvariantChecker.run (c : RankInvariantChecker)
    (dm : DecisionMatrix) : RunState :=
  RankInvariantChecker.runAux c dm.alternatives c.repeats (c.initState dm)

/-- Modelled from the spec: `RankInvariantChecker.evaluate` (§4.4) —
the Original entry followed by the named trial entries in trial order,
or the fatal value error with no partial comparator. -/
def RankInvariantChecker.evaluate (c : RankInvariantChecker)
    (dm : DecisionMatrix) : Except String (List (String × RankResult)) :=
  match (c.run dm).err with
  | some e => .error e
  | none =>
    .ok (("Original", c.dmaker dm) ::
      (c.run dm).trials.map fun t => (t.name, t.patched))

/-- The mutation chaining discipline of §4.4 step 2a: the first trial's
input matrix is the pristine matrix and every later trial's input matrix
is the mutated matrix produced by the trial before it. -/
def ChainedFrom : DecisionMatrix → List Trial → Prop
  | _, [] => True
  | d, t :: ts => t.input_dm = d ∧ ChainedFrom t.mdm ts

/-- The mutated matrix of the most recent trial, or the pristine matrix
when no trial has run yet. -/
def lastMdm (d : DecisionMatrix) (ts : List Trial) : DecisionMatrix :=
  ts.getLast?.elim d Trial.mdm

/-!
## Concrete instances used by the witnesses
-/

/-- A ranker that always drops the first alternative of its input and
ranks the remaining ones (used to exercise the missing-alternative
paths). -/
def rankerDrop1 : DecisionMatrix → RankResult := fun m =>
  { alternatives := m.alternatives.drop 1,
    values := (m.alternatives.drop 1).map fun _ => 1 }

/-- A ranker that keeps every alternative of its input. -/
def rankerKeepAll : DecisionMatrix → RankResult := fun m =>
  { alternatives := m.alternatives, values := m.alternatives.map fun _ => 1 }

/-- A two-alternative, zero-criterion decision matrix. -/
def dmAB : DecisionMatrix :=
  { alternatives := ["A", "B"], mtx := [], minimize := [] }

/-- The five-alternative decision matrix of the stock-selection
scenario (§8), with no criterion columns. -/
def dm5 : DecisionMatrix :=
  { alternatives := ["AA", "MM", "PE", "JN", "FX"], mtx := [], minimize := [] }

/-- Checker with a dropping ranker and missing alternatives allowed. -/
def checkerDropAllow : RankInvariantChecker :=
  { dmaker := rankerDrop1, repeats := 1, allow_missing_alternatives := true,
    last_diff_strategy := fun _ => 0, random_state := 42, noise_bound := 0 }

/-- Checker with a dropping ranker and missing alternatives forbidden. -/
def checkerDropForbid : RankInvariantChecker :=
  { dmaker := rankerDrop1, repeats := 1, allow_missing_alternatives := false,
    last_diff_strategy := fun _ => 0, random_state := 42, noise_bound := 0 }

/-- Checker with the total ranker, one repeat and seed 42. -/
def checkerKeep1 : RankInvariantChecker :=
  { dmaker := rankerKeepAll, repeats := 1, allow_missing_alternatives := false,
    last_diff_strategy := fun _ => 0, random_state := 42, noise_bound := 0 }

/-- Checker with the total ranker and two repeats. -/
def checkerKeep2 : RankInvariantChecker :=
  { dmaker := rankerKeepAll, repeats := 2, allow_missing_alternatives := false,
    last_diff_strategy := fun _ => 0, random_state := 42, noise_bound := 0 }

/-!
## Lemmas about the wprod heap and the preprocess pipeline
-/

theorem placeMinCols_selectMinCols (bs : List Bool) :
    ∀ cs : Mat, placeMinCols bs (selectMinCols bs cs) cs = invertCols bs cs := by
  induction bs with
  | nil => intro cs; rfl
  | cons b bs ih =>
    intro cs
    cases cs with
    | nil => cases b <;> rfl
    | cons c cs => cases b <;> simp [placeMinCols, selectMinCols, invertCols, ih]

theorem invertCols_of_not_mem {bs : List Bool} (h : true ∉ bs) :
    ∀ cs : Mat, invertCols bs cs = cs := by
  induction bs with
  | nil => intro cs; rfl
  | cons b bs ih =>
    intro cs
    cases b with
    | true => exact absurd (List.mem_cons_self _ _) h
    | false =>
      cases cs with
      | nil => rfl
      | cons c cs =>
        have : true ∉ bs := fun hm => h (List.mem_cons_of_mem _ hm)
        simp [invertCols, ih this]

/-- The matrix the logarithm is applied to inside `wprod` is the
inversion of the preprocessed matrix, whichever branch is taken. -/
theorem wprodHeap_read (m : Mat) (bs : List Bool) :
    (wprodHeap m bs).read = invertCols bs m := by
  unfold wprodHeap
  by_cases h : true ∈ bs
  · simp only [if_pos h, NpHeap.writeMinCols, NpHeap.astype, NpHeap.read]
    simp [List.getD, placeMinCols_selectMinCols]
  · simp only [if_neg h, NpHeap.read]
    simp [List.getD, invertCols_of_not_mem h]

theorem foldl_min_le (l : List ℚ) :
    ∀ a : ℚ, l.foldl min a ≤ a ∧ ∀ x ∈ l, l.foldl min a ≤ x := by
  induction l with
  | nil => intro a; exact ⟨le_refl a, by simp⟩
  | cons b l ih =>
    intro a
    have h := ih (min a b)
    refine ⟨le_trans h.1 (min_le_left a b), ?_⟩
    intro x hx
    rcases List.mem_cons.mp hx with h1 | h1
    · subst h1; exact le_trans h.1 (min_le_right a x)
    · exact h.2 x h1

theorem colMin_le {x : ℚ} {col : Col} (hx : x ∈ col) : colMin col ≤ x := by
  cases col with
  | nil => cases hx
  | cons a l =>
    rcases List.mem_cons.mp hx with h | h
    · subst h; exact (foldl_min_le l x).1
    · exact (foldl_min_le l a).2 x h

theorem pushNegCol_nonneg {col : Col} {x : ℚ} (hx : x ∈ pushNegCol col) :
    0 ≤ x := by
  unfold pushNegCol at hx
  by_cases h : colMin col < 0
  · rw [if_pos h] at hx
    rcases List.mem_map.mp hx with ⟨y, hy, rfl⟩
    have := colMin_le hy
    linarith
  · rw [if_neg h] at hx
    have := colMin_le hx
    linarith

theorem add1to0Col_pos {col : Col} (h0 : ∀ y ∈ col, 0 ≤ y) :
    ∀ x ∈ add1to0Col col, 0 < x := by
  intro x hx
  unfold add1to0Col at hx
  by_cases h : (0 : ℚ) ∈ col
  · rw [if_pos h] at hx
    rcases List.mem_map.mp hx with ⟨y, hy, rfl⟩
    have := h0 y hy
    linarith
  · rw [if_neg h] at hx
    rcases lt_or_eq_of_le (h0 x hx) with hlt | heq
    · exact hlt
    · exact absurd (heq ▸ hx) h

theorem sumNormCol_pos {col : Col} (hne : col ≠ [])
    (hpos : ∀ y ∈ col, 0 < y) : ∀ x ∈ sumNormCol col, 0 < x := by
  intro x hx
  rcases List.mem_map.mp hx with ⟨y, hy, rfl⟩
  exact div_pos (hpos y hy) (List.sum_pos col hpos hne)

theorem pushNegCol_ne_nil {col : Col} (h : col ≠ []) : pushNegCol col ≠ [] := by
  unfold pushNegCol
  split <;> simpa using h

theorem add1to0Col_ne_nil {col : Col} (h : col ≠ []) : add1to0Col col ≠ [] := by
  unfold add1to0Col
  split <;> simpa using h

theorem preprocessMtx_pos {d : Mat} (hne : ∀ col ∈ d, col ≠ []) :
    ∀ col ∈ preprocessMtx d, ∀ x ∈ col, 0 < x := by
  intro col hcol
  unfold preprocessMtx sum_norm add1to0 push_negatives at hcol
  simp only [List.mem_map] at hcol
  obtain ⟨c1, ⟨c2, ⟨c0, hc0, rfl⟩, rfl⟩, rfl⟩ := hcol
  have h1 : ∀ y ∈ pushNegCol c0, 0 ≤ y := fun y hy => pushNegCol_nonneg hy
  have h2 : ∀ y ∈ add1to0Col (pushNegCol c0), 0 < y := add1to0Col_pos h1
  exact sumNormCol_pos (add1to0Col_ne_nil (pushNegCol_ne_nil (hne c0 hc0))) h2

theorem invertCols_pos {bs : List Bool} :
    ∀ {cs : Mat}, (∀ col ∈ cs, ∀ x ∈ col, 0 < x) →
      ∀ col ∈ invertCols bs cs, ∀ x ∈ col, 0 < x := by
  induction bs with
  | nil => intro cs h; exact h
  | cons b bs ih =>
    intro cs h
    cases cs with
    | nil => intro col hcol; cases hcol
    | cons c cs =>
      intro col hcol
      have hc : ∀ x ∈ c, 0 < x := h c (List.mem_cons_self _ _)
      have hcs : ∀ col ∈ cs, ∀ x ∈ col, 0 < x :=
        fun col hm => h col (List.mem_cons_of_mem _ hm)
      rcases List.mem_cons.mp hcol with h1 | h1
      · subst h1
        intro x hx
        cases b with
        | true =>
          simp only [if_pos] at hx
          rcases List.mem_map.mp hx with ⟨y, hy, rfl⟩
          exact one_div_pos.mpr (hc y hy)
        | false => exact hc x (by simpa using hx)
      · exact ih hcs col h1

/-!
## Claim theorems for wprod
-/

/-- C9: `wprod` leaves its `nmtx` argument unchanged after returning:
the caller's buffer (buffer 0) still holds the original matrix, and the
inversion of the minimized criteria lives in the buffer produced by
`astype`, which the local `nmtx` names when the logarithm is taken. -/
theorem wprod_caller_buffer_unchanged (log : ℚ → ℚ) (nmtx : Mat)
    (ncriteria : List Bool) (nweights : List ℚ) :
    (wprodRun log nmtx ncriteria nweights).2.bufs.get? 0 = some nmtx
    ∧ (wprodRun log nmtx ncriteria nweights).2.read
        = invertCols ncriteria nmtx := by
  refine ⟨?_, wprodHeap_read nmtx ncriteria⟩
  unfold wprodRun wprodHeap
  by_cases h : true ∈ ncriteria
  · simp [if_pos h, NpHeap.writeMinCols, NpHeap.astype, NpHeap.read, List.getD]
  · simp [if_neg h]

/-- C10: preprocessing pushes negative criterion values to non-negative
and adds 1 to zero-containing criterion columns before normalizing, so
every value of the matrix the logarithm is applied to inside `wprod` —
including the reciprocals of the minimized criteria — is strictly
positive. -/
theorem wprod_log_inputs_pos (d : Mat) (ncriteria : List Bool)
    (hne : ∀ col ∈ d, col ≠ []) :
    ∀ col ∈ (wprodHeap (preprocessMtx d) ncriteria).read,
      ∀ x ∈ col, 0 < x := by
  rw [wprodHeap_read]
  exact invertCols_pos (preprocessMtx_pos hne)

/-- C10 witness: on a concrete matrix with a negative and a zero entry,
the first value reaching the logarithm (a reciprocal of a minimized
criterion) is strictly positive. -/
theorem wprod_log_inputs_pos_witness :
    0 < (((wprodHeap (preprocessMtx [[3, -1]]) [true]).read.getD 0 []).getD
        0 0) := by
  have h := wprod_log_inputs_pos [[3, -1]] [true] (by decide)
  have hread : (wprodHeap (preprocessMtx [[3, -1]]) [true]).read
      = [[6 / 5, 6]] := by
    rw [wprodHeap_read]
    norm_num [preprocessMtx, sum_norm, add1to0, push_negatives, pushNegCol,
      add1to0Col, sumNormCol, colMin, invertCols, min_def, List.foldl]
  have hm : ([6 / 5, 6] : Col) ∈ (wprodHeap (preprocessMtx [[3, -1]])
      [true]).read := by
    rw [hread]; exact List.mem_cons_self _ _
  have hx : ((6 : ℚ) / 5) ∈ ([6 / 5, 6] : Col) := List.mem_cons_self _ _
  have hpos := h ([6 / 5, 6] : Col) hm ((6 : ℚ) / 5) hx
  rw [hread]
  exact hpos

/-!
## Lemmas about the checker's state machine
-/

theorem step_of_err (c : RankInvariantChecker) (full : List String)
    (st : RunState) (e : String) (he : st.err = some e) :
    c.step full st = st := by
  unfold RankInvariantChecker.step
  rw [he]
  rfl

theorem step_ok (c : RankInvariantChecker) (full : List String)
    (st : RunState) (p : RankResult) (he : st.err = none)
    (hpm : patchMissing full c.allow_missing_alternatives (stepGM c st).2.1
      st.it (stepRaw c st) = .ok p) :
    c.step full st =
      { current := (stepGM c st).1, lastRank := p, k := (stepGM c st).2.2,
        it := st.it + 1,
        trials := st.trials ++
          [⟨"M." ++ toString st.it, st.current, (stepGM c st).1,
            (stepGM c st).2.1, st.it, stepRaw c st, p⟩],
        err := none } := by
  unfold RankInvariantChecker.step
  rw [he, hpm]
  rfl

theorem step_err (c : RankInvariantChecker) (full : List String)
    (st : RunState) (e : String) (he : st.err = none)
    (hpm : patchMissing full c.allow_missing_alternatives (stepGM c st).2.1
      st.it (stepRaw c st) = .error e) :
    c.step full st =
      { current := (stepGM c st).1, lastRank := st.lastRank,
        k := (stepGM c st).2.2, it := st.it + 1,
        trials := st.trials ++
          [⟨"M." ++ toString st.it, st.current, (stepGM c st).1,
            (stepGM c st).2.1, st.it, stepRaw c st, stepRaw c st⟩],
        err := some e } := by
  unfold RankInvariantChecker.step
  rw [he, hpm]
  rfl

theorem runAux_preserve (c : RankInvariantChecker) (full : List String)
    (P : RunState → Prop) (hstep : ∀ st, P st → P (c.step full st)) :
    ∀ (n : Nat) (st : RunState), P st → P (c.runAux full n st) := by
  intro n
  induction n with
  | zero => intro st h; exact h
  | succ n ih => intro st h; exact ih _ (hstep st h)

theorem lookup_zip_not_mem (a : String) :
    ∀ (A : List String) (V : List Nat), ¬ a ∈ A → (A.zip V).lookup a = none := by
  intro A
  induction A with
  | nil => intro V _; rfl
  | cons x A ih =>
    intro V h
    cases V with
    | nil => rfl
    | cons v V =>
      have hax : a ≠ x := fun he => h (he ▸ List.mem_cons_self x A)
      have hb : (a == x) = false := beq_eq_false_iff_ne.mpr hax
      simp only [List.zip_cons_cons, List.lookup, hb]
      exact ih V fun hm => h (List.mem_cons_of_mem _ hm)

theorem lookup_zip_const (v : Nat) (a : String) :
    ∀ M : List String, a ∈ M →
      (M.zip (M.map fun _ => v)).lookup a = some v := by
  intro M
  induction M with
  | nil => intro h; cases h
  | cons x M ih =>
    intro h
    by_cases hax : a = x
    · subst hax
      simp [List.lookup]
    · have hm : a ∈ M := by
        rcases List.mem_cons.mp h with h1 | h1
        · exact absurd h1 hax
        · exact h1
      have hb : (a == x) = false := beq_eq_false_iff_ne.mpr hax
      simp only [List.map_cons, List.zip_cons_cons, List.lookup, hb]
      exact ih hm

theorem lookup_append_of_none (a : String) :
    ∀ l₁ l₂ : List (String × Nat), l₁.lookup a = none →
      (l₁ ++ l₂).lookup a = l₂.lookup a := by
  intro l₁
  induction l₁ with
  | nil => intro l₂ _; rfl
  | cons q l₁ ih =>
    intro l₂ h
    obtain ⟨k, b⟩ := q
    cases hb : (a == k) with
    | true => simp [List.lookup, hb] at h
    | false =>
      simp only [List.cons_append, List.lookup, hb] at h ⊢
      exact ih l₂ h

theorem patchMissing_ok_of_nil (full : List String) (allow : Bool)
    (noise : Mat) (it : Nat) (r : RankResult)
    (h : missingOf full r = []) :
    patchMissing full allow noise it r
      = .ok { r with
          extra_missing := [],
          extra_noise := noise,
          extra_iteration := it } := by
  simp [patchMissing, h]

theorem patchMissing_not_allowed_ok {full : List String} {noise : Mat}
    {it : Nat} {r p : RankResult}
    (hp : patchMissing full false noise it r = .ok p) :
    missingOf full r = [] := by
  unfold patchMissing at hp
  by_cases h : (missingOf full r).isEmpty
  · exact List.isEmpty_iff.mp h
  · rw [if_neg h] at hp
    simp at hp

theorem patchMissing_allowed_ok (full : List String) (noise : Mat)
    (it : Nat) (r : RankResult) :
    ∃ p, patchMissing full true noise it r = .ok p := by
  unfold patchMissing
  by_cases h : (missingOf full r).isEmpty
  · rw [if_pos h]
    exact ⟨_, rfl⟩
  · rw [if_neg h]
    exact ⟨_, rfl⟩

theorem patchMissing_spec (full : List String) (noise : Mat) (it : Nat)
    (r : RankResult) (hwf : r.alternatives.length = r.values.length)
    (hm : missingOf full r ≠ []) {p : RankResult}
    (hp : patchMissing full true noise it r = .ok p) :
    p.extra_missing = missingOf full r
    ∧ (∀ a ∈ missingOf full r, p.rankOf a = some (r.alternatives.length + 1))
    ∧ (2 ≤ (missingOf full r).length → p.has_ties = true) := by
  have hne : (missingOf full r).isEmpty = false := by
    cases hh : missingOf full r with
    | nil => exact absurd hh hm
    | cons a l => rfl
  simp only [patchMissing, hne, Bool.false_eq_true, if_false, if_true,
    Except.ok.injEq] at hp
  subst hp
  refine ⟨rfl, ?_, ?_⟩
  · intro a ha
    have hnotmem : ¬ a ∈ r.alternatives := by
      have hd := (List.mem_filter.mp ha).2
      exact of_decide_eq_true hd
    show ((r.alternatives ++ missingOf full r).zip
        (r.values ++ (missingOf full r).map
          fun _ => r.alternatives.length + 1)).lookup a
      = some (r.alternatives.length + 1)
    rw [List.zip_append hwf,
      lookup_append_of_none a _ _ (lookup_zip_not_mem a _ _ hnotmem)]
    exact lookup_zip_const (r.alternatives.length + 1) a _ ha
  · intro h2
    cases hMM : missingOf full r with
    | nil => exact absurd hMM hm
    | cons a M1 =>
      cases M1 with
      | nil =>
        rw [hMM] at h2
        simp at h2
      | cons b M2 =>
        refine decide_eq_true ?_
        intro hnd
        have hnd2 : (r.values ++
            ((a :: b :: M2).map fun _ => r.alternatives.length + 1)).Nodup := hnd
        rw [List.map_cons, List.map_cons] at hnd2
        have h3 := List.Nodup.of_append_right hnd2
        exact (List.nodup_cons.mp h3).1 (List.mem_cons_self _ _)

theorem step_preserve_no_missing (c : RankInvariantChecker)
    (full : List String) (hallow : c.allow_missing_alternatives = false)
    (st : RunState)
    (h : st.err = none → ∀ t ∈ st.trials, missingOf full t.raw = []) :
    (c.step full st).err = none →
      ∀ t ∈ (c.step full st).trials, missingOf full t.raw = [] := by
  cases he : st.err with
  | some e =>
    rw [step_of_err c full st e he]
    intro h2
    rw [he] at h2
    exact Option.noConfusion h2
  | none =>
    cases hpm : patchMissing full c.allow_missing_alternatives
        (stepGM c st).2.1 st.it (stepRaw c st) with
    | ok p =>
      rw [step_ok c full st p he hpm]
      intro _ t ht
      rcases List.mem_append.mp ht with h1 | h1
      · exact h he t h1
      · rw [List.mem_singleton] at h1
        subst h1
        rw [hallow] at hpm
        exact patchMissing_not_allowed_ok hpm
    | error e =>
      rw [step_err c full st e he hpm]
      intro h2
      exact Option.noConfusion h2

theorem run_no_missing (c : RankInvariantChecker) (dm : DecisionMatrix)
    (hallow : c.allow_missing_alternatives = false) :
    (c.run dm).err = none →
      ∀ t ∈ (c.run dm).trials, missingOf dm.alternatives t.raw = [] :=
  runAux_preserve c dm.alternatives
    (fun st => st.err = none →
      ∀ t ∈ st.trials, missingOf dm.alternatives t.raw = [])
    (fun st h => step_preserve_no_missing c dm.alternatives hallow st h)
    c.repeats (c.initState dm)
    (fun _ t ht => absurd ht (List.not_mem_nil t))

theorem step_preserve_patched (c : RankInvariantChecker)
    (full : List String) (hallow : c.allow_missing_alternatives = true)
    (st : RunState)
    (h : ∀ t ∈ st.trials, t.raw = c.dmaker t.mdm ∧
      patchMissing full true t.noise t.iteration t.raw = .ok t.patched) :
    ∀ t ∈ (c.step full st).trials, t.raw = c.dmaker t.mdm ∧
      patchMissing full true t.noise t.iteration t.raw = .ok t.patched := by
  cases he : st.err with
  | some e =>
    rw [step_of_err c full st e he]
    exact h
  | none =>
    cases hpm : patchMissing full c.allow_missing_alternatives
        (stepGM c st).2.1 st.it (stepRaw c st) with
    | ok p =>
      rw [step_ok c full st p he hpm]
      intro t ht
      rcases List.mem_append.mp ht with h1 | h1
      · exact h t h1
      · rw [List.mem_singleton] at h1
        subst h1
        rw [hallow] at hpm
        exact ⟨rfl, hpm⟩
    | error e =>
      exfalso
      rw [hallow] at hpm
      obtain ⟨p, hp⟩ :=
        patchMissing_allowed_ok full (stepGM c st).2.1 st.it (stepRaw c st)
      rw [hp] at hpm
      exact Except.noConfusion hpm

theorem run_patched (c : RankInvariantChecker) (dm : DecisionMatrix)
    (hallow : c.allow_missing_alternatives = true) :
    ∀ t ∈ (c.run dm).trials, t.raw = c.dmaker t.mdm ∧
      patchMissing dm.alternatives true t.noise t.iteration t.raw
        = .ok t.patched :=
  runAux_preserve c dm.alternatives
    (fun st => ∀ t ∈ st.trials, t.raw = c.dmaker t.mdm ∧
      patchMissing dm.alternatives true t.noise t.iteration t.raw
        = .ok t.patched)
    (fun st h => step_preserve_patched c dm.alternatives hallow st h)
    c.repeats (c.initState dm)
    (fun t ht => absurd ht (List.not_mem_nil t))

/-!
## Claim theorems for the checker
-/

/-- C1: in an `evaluate` call with `allow_missing_alternatives=True`,
every trial ranking that misses original alternatives has the missing
set recorded in its diagnostic metadata, every missing alternative gets
the shared placeholder rank (the trial ranking's tie-pool size plus
one), and the recomputed `has_ties` flag is true whenever at least two
alternatives are missing. -/
theorem evaluate_missing_placeholder (c : RankInvariantChecker)
    (dm : DecisionMatrix) (hallow : c.allow_missing_alternatives = true)
    (hwf : ∀ m, (c.dmaker m).alternatives.length = (c.dmaker m).values.length) :
    ∀ t ∈ (c.run dm).trials, missingOf dm.alternatives t.raw ≠ [] →
      t.patched.extra_missing = missingOf dm.alternatives t.raw
      ∧ (∀ a ∈ missingOf dm.alternatives t.raw,
          t.patched.rankOf a = some (t.raw.alternatives.length + 1))
      ∧ (2 ≤ (missingOf dm.alternatives t.raw).length →
          t.patched.has_ties = true) := by
  intro t ht hm
  obtain ⟨hraw, hpatch⟩ := run_patched c dm hallow t ht
  have hwt : t.raw.alternatives.length = t.raw.values.length := by
    rw [hraw]
    exact hwf t.mdm
  exact patchMissing_spec dm.alternatives t.noise t.iteration t.raw hwt hm hpatch

/-- C1 witness: a two-alternative run whose ranker drops "A"; the trial
entry records "A" missing and ranks it with placeholder 2. -/
theorem evaluate_missing_placeholder_witness :
    ((checkerDropAllow.run dmAB).trials.getD 0 default).patched.extra_missing
        = missingOf dmAB.alternatives
            ((checkerDropAllow.run dmAB).trials.getD 0 default).raw
    ∧ ((checkerDropAllow.run dmAB).trials.getD 0 default).patched.rankOf "A"
        = some (((checkerDropAllow.run dmAB).trials.getD 0
            default).raw.alternatives.length + 1) := by
  have h := evaluate_missing_placeholder checkerDropAllow dmAB rfl
    (by intro m; simp [checkerDropAllow, rankerDrop1])
  have ht : (checkerDropAllow.run dmAB).trials.getD 0 default
      ∈ (checkerDropAllow.run dmAB).trials := by decide
  have hm : missingOf dmAB.alternatives
      ((checkerDropAllow.run dmAB).trials.getD 0 default).raw ≠ [] := by decide
  have hc := h ((checkerDropAllow.run dmAB).trials.getD 0 default) ht hm
  exact ⟨hc.1, hc.2.1 "A" (by decide)⟩

/-- C2: when some trial ranking of the run drops an original alternative
while `allow_missing_alternatives` is `False`, the whole `evaluate` call
fails with the value error: no comparator, not even a partial one, is
returned. -/
theorem evaluate_fatal_on_disallowed_missing (c : RankInvariantChecker)
    (dm : DecisionMatrix) (hallow : c.allow_missing_alternatives = false)
    (hmiss : ∃ t ∈ (c.run dm).trials, missingOf dm.alternatives t.raw ≠ []) :
    (c.evaluate dm).isOk = false := by
  obtain ⟨t, ht, hm⟩ := hmiss
  unfold RankInvariantChecker.evaluate
  cases herr : (c.run dm).err with
  | some e => rfl
  | none => exact absurd (run_no_missing c dm hallow herr t ht) hm

/-- C2 witness: the same dropping ranker with missing alternatives
forbidden makes the whole `evaluate` call fail. -/
theorem evaluate_fatal_on_disallowed_missing_witness :
    (checkerDropForbid.evaluate dmAB).isOk = false :=
  evaluate_fatal_on_disallowed_missing checkerDropForbid dmAB rfl (by decide)

theorem lastMdm_cons (d : DecisionMatrix) (s : Trial) (ts : List Trial) :
    lastMdm d (s :: ts) = lastMdm s.mdm ts := by
  cases ts with
  | nil => rfl
  | cons u ts =>
    simp only [lastMdm, List.getLast?_cons_cons]
    cases h : (u :: ts).getLast? with
    | none =>
      rw [List.getLast?_eq_none_iff] at h
      exact absurd h (List.cons_ne_nil u ts)
    | some x => rfl

theorem chainedFrom_append (t : Trial) :
    ∀ (ts : List Trial) (d : DecisionMatrix), ChainedFrom d ts →
      t.input_dm = lastMdm d ts →
      ChainedFrom d (ts ++ [t]) ∧ lastMdm d (ts ++ [t]) = t.mdm := by
  intro ts
  induction ts with
  | nil =>
    intro d _ hin
    exact ⟨⟨hin, trivial⟩, rfl⟩
  | cons s ts ih =>
    intro d hc hin
    obtain ⟨h1, h2⟩ := hc
    rw [lastMdm_cons] at hin
    have hr := ih s.mdm h2 hin
    refine ⟨⟨h1, hr.1⟩, ?_⟩
    rw [List.cons_append, lastMdm_cons]
    exact hr.2

theorem chainedFrom_get :
    ∀ (ts : List Trial) (d : DecisionMatrix), ChainedFrom d ts →
      (∀ h0 : 0 < ts.length, (ts.get ⟨0, h0⟩).input_dm = d)
      ∧ ∀ (i : Nat) (h1 : i + 1 < ts.length) (h2 : i < ts.length),
          (ts.get ⟨i + 1, h1⟩).input_dm = (ts.get ⟨i, h2⟩).mdm := by
  intro ts
  induction ts with
  | nil =>
    intro d _
    refine ⟨fun h0 => absurd h0 (by simp), fun i h1 h2 => absurd h1 (by simp)⟩
  | cons s ts ih =>
    intro d hc
    obtain ⟨h1, h2⟩ := hc
    have iht := ih s.mdm h2
    constructor
    · intro _
      exact h1
    · intro i hi1 hi2
      cases i with
      | zero =>
        have h0 : 0 < ts.length := by
          simp only [List.length_cons] at hi1
          omega
        exact iht.1 h0
      | succ j =>
        have ha : j + 1 < ts.length := by
          simp only [List.length_cons] at hi1
          omega
        have hb : j < ts.length := by omega
        exact iht.2 j ha hb

theorem step_preserve_chain (c : RankInvariantChecker) (full : List String)
    (d0 : DecisionMatrix) (st : RunState)
    (h : ChainedFrom d0 st.trials ∧ st.current = lastMdm d0 st.trials) :
    ChainedFrom d0 (c.step full st).trials
    ∧ (c.step full st).current = lastMdm d0 (c.step full st).trials := by
  cases he : st.err with
  | some e =>
    rw [step_of_err c full st e he]
    exact h
  | none =>
    cases hpm : patchMissing full c.allow_missing_alternatives
        (stepGM c st).2.1 st.it (stepRaw c st) with
    | ok p =>
      rw [step_ok c full st p he hpm]
      have hap := chainedFrom_append
        ⟨"M." ++ toString st.it, st.current, (stepGM c st).1,
          (stepGM c st).2.1, st.it, stepRaw c st, p⟩
        st.trials d0 h.1 h.2
      exact ⟨hap.1, hap.2.symm⟩
    | error e =>
      rw [step_err c full st e he hpm]
      have hap := chainedFrom_append
        ⟨"M." ++ toString st.it, st.current, (stepGM c st).1,
          (stepGM c st).2.1, st.it, stepRaw c st, stepRaw c st⟩
        st.trials d0 h.1 h.2
      exact ⟨hap.1, hap.2.symm⟩

theorem run_chained (c : RankInvariantChecker) (dm : DecisionMatrix) :
    ChainedFrom dm (c.run dm).trials :=
  (runAux_preserve c dm.alternatives
    (fun st => ChainedFrom dm st.trials ∧ st.current = lastMdm dm st.trials)
    (fun st h => step_preserve_chain c dm.alternatives dm st h)
    c.repeats (c.initState dm) ⟨trivial, rfl⟩).1

/-- C8: mutation is chained — the first repeat perturbs the pristine
matrix and every later repeat's mutation strategy receives the matrix
produced by the repeat before it, never the pristine original. -/
theorem evaluate_chained_mutation (c : RankInvariantChecker)
    (dm : DecisionMatrix) :
    (∀ h0 : 0 < (c.run dm).trials.length,
      (((c.run dm).trials).get ⟨0, h0⟩).input_dm = dm)
    ∧ ∀ (i : Nat) (h1 : i + 1 < (c.run dm).trials.length)
        (h2 : i < (c.run dm).trials.length),
        (((c.run dm).trials).get ⟨i + 1, h1⟩).input_dm
          = (((c.run dm).trials).get ⟨i, h2⟩).mdm :=
  chainedFrom_get (c.run dm).trials dm (run_chained c dm)

/-- C8 witness: with two repeats, the first trial's input is the
pristine matrix and the second trial's input is the first trial's
mutated output. -/
theorem evaluate_chained_mutation_witness :
    (((checkerKeep2.run dmAB).trials).get
        ⟨0, by decide⟩).input_dm = dmAB
    ∧ (((checkerKeep2.run dmAB).trials).get
        ⟨1, by decide⟩).input_dm
      = (((checkerKeep2.run dmAB).trials).get ⟨0, by decide⟩).mdm := by
  have h := evaluate_chained_mutation checkerKeep2 dmAB
  exact ⟨h.1 (by decide), h.2 0 (by decide) (by decide)⟩

theorem missingOf_nil_of_cover {full : List String} {r : RankResult}
    (h : ∀ a ∈ full, a ∈ r.alternatives) : missingOf full r = [] := by
  unfold missingOf
  apply List.filter_eq_nil_iff.mpr
  intro a ha
  simp [h a ha]

/-- C3: with a ranker that covers all alternatives, the five-alternative
scenario with one repeat and seed 42 returns a comparator with exactly
two entries: "Original" first, then the single trial entry. -/
theorem evaluate_two_entries (c : RankInvariantChecker) (dm : DecisionMatrix)
    (_halts : dm.alternatives = ["AA", "MM", "PE", "JN", "FX"])
    (_hseed : c.random_state = 42) (hrep : c.repeats = 1)
    (hcover : ∀ m, (c.dmaker m).alternatives = m.alternatives) :
    ∃ l, c.evaluate dm = .ok l ∧ l.map Prod.fst = ["Original", "M.1"]
      ∧ l.length = 2 := by
  have hmiss : missingOf dm.alternatives (stepRaw c (c.initState dm)) = [] := by
    apply missingOf_nil_of_cover
    intro a ha
    rw [stepRaw, hcover]
    exact ha
  have hpm := patchMissing_ok_of_nil dm.alternatives
    c.allow_missing_alternatives (stepGM c (c.initState dm)).2.1
    (c.initState dm).it (stepRaw c (c.initState dm)) hmiss
  have hstep := step_ok c dm.alternatives (c.initState dm) _ rfl hpm
  have hrun : c.run dm = c.step dm.alternatives (c.initState dm) := by
    unfold RankInvariantChecker.run
    rw [hrep]
    rfl
  refine ⟨("Original", c.dmaker dm) ::
      [("M." ++ toString (c.initState dm).it,
        { alternatives := (stepRaw c (c.initState dm)).alternatives,
          values := (stepRaw c (c.initState dm)).values,
          extra_missing := [],
          extra_noise := (stepGM c (c.initState dm)).2.1,
          extra_iteration := (c.initState dm).it })], ?_, ?_, ?_⟩
  · unfold RankInvariantChecker.evaluate
    rw [hrun, hstep]
    rfl
  · show ["Original", "M." ++ toString 1] = ["Original", "M.1"]
    decide
  · rfl

/-- C3 witness: a concrete five-alternative matrix with a total ranker,
one repeat and seed 42 yields exactly the two entries. -/
theorem evaluate_two_entries_witness :
    (checkerKeep1.evaluate dm5).toOption.map (List.map Prod.fst)
      = some ["Original", "M.1"]
    ∧ (checkerKeep1.evaluate dm5).toOption.map List.length = some 2 := by
  obtain ⟨l, hl, hmap, hlen⟩ := evaluate_two_entries checkerKeep1 dm5 rfl rfl
    rfl (fun m => rfl)
  rw [hl]
  simp [hmap, hlen, Except.toOption]

/-- C4: `RankInvariantChecker` construction succeeds exactly when the
ranker exposes a callable `evaluate` and `last_diff_strategy` is
callable; in every other case it fails with the type error immediately —
`evaluate` is only defined on successfully constructed checkers, so the
failure can never be deferred. -/
theorem RankInvariantChecker_construction_type_error
    (dmaker : PyAttr (DecisionMatrix → RankResult))
    (lds : PyAttr (List ℚ → ℚ)) (repeats : Nat) (allow : Bool)
    (seed : Nat) (bound : ℚ) :
    (mkRankInvariantChecker dmaker lds repeats allow seed bound).isOk
      = (dmaker.isCallable && lds.isCallable) := by
  cases dmaker <;> cases lds <;> rfl

/-- C6: `evaluate` is a deterministic function of the decision matrix,
the ranker and the checker's configuration (repeats, policy, seed,
bound): checkers with equal configurations produce identical noise
sequences, identical trial lists and identical comparators. -/
theorem evaluate_deterministic (c₁ c₂ : RankInvariantChecker)
    (dm : DecisionMatrix) (hdm : c₁.dmaker = c₂.dmaker)
    (hrep : c₁.repeats = c₂.repeats)
    (hallow : c₁.allow_missing_alternatives = c₂.allow_missing_alternatives)
    (hlds : c₁.last_diff_strategy = c₂.last_diff_strategy)
    (hseed : c₁.random_state = c₂.random_state)
    (hbound : c₁.noise_bound = c₂.noise_bound) :
    (c₁.run dm).trials.map Trial.noise = (c₂.run dm).trials.map Trial.noise
    ∧ (c₁.run dm).trials = (c₂.run dm).trials
    ∧ c₁.evaluate dm = c₂.evaluate dm := by
  have hc : c₁ = c₂ := by
    cases c₁
    cases c₂
    simp only [RankInvariantChecker.mk.injEq]
    exact ⟨hdm, hrep, hallow, hlds, hseed, hbound⟩
  rw [hc]
  exact ⟨rfl, rfl, rfl⟩

/-- C6 witness: two syntactically equal checker configurations at seed
42 give identical noise sequences, trials and comparator. -/
theorem evaluate_deterministic_witness :
    (checkerKeep1.run dm5).trials.map Trial.noise
        = (checkerKeep1.run dm5).trials.map Trial.noise
    ∧ (checkerKeep1.run dm5).trials = (checkerKeep1.run dm5).trials
    ∧ checkerKeep1.evaluate dm5 = checkerKeep1.evaluate dm5 :=
  evaluate_deterministic checkerKeep1 checkerKeep1 dm5 rfl rfl rfl rfl rfl rfl

theorem uniform01_nonneg (s k : Nat) : 0 ≤ uniform01 s k := by
  unfold uniform01
  positivity

theorem uniform01_lt_one (s k : Nat) : uniform01 s k < 1 := by
  unfold uniform01
  rw [div_lt_one (by norm_num)]
  have h : ((1103515245 * (s + k) + 12345) % 2147483648) % 1024 < 1024 :=
    Nat.mod_lt _ (by norm_num)
  exact_mod_cast h

theorem abs_symNoise_le {b u : ℚ} (hb : 0 ≤ b) (h0 : 0 ≤ u) (h1 : u < 1) :
    |symNoise b u| ≤ b := by
  unfold symNoise
  rw [abs_mul, abs_of_nonneg hb]
  have h2 : |2 * u - 1| ≤ 1 := by
    rw [abs_le]
    constructor <;> linarith
  calc b * |2 * u - 1| ≤ b * 1 := mul_le_mul_of_nonneg_left h2 hb
    _ = b := mul_one b

theorem noiseMatrix_col (b : ℚ) (s k nAlts nCrit j : Nat) (hj : j < nCrit) :
    (noiseMatrix b s k nAlts nCrit).getD j []
      = (List.range nAlts).map fun i =>
          symNoise b (uniform01 s (k + j * nAlts + i)) := by
  simp [noiseMatrix, List.getD, List.getElem?_map, List.getElem?_range, hj]

theorem range_map_getD (nAlts i : Nat) (f : Nat → ℚ) (hi : i < nAlts) :
    (((List.range nAlts).map f).getD i 0) = f i := by
  simp [List.getD, List.getElem?_map, List.getElem?_range, hi]

theorem zipWith_getD {α β γ : Type} (f : α → β → γ) (da : α) (db : β) :
    ∀ (as : List α) (bs : List β) (i : Nat), i < as.length → i < bs.length →
      (List.zipWith f as bs).getD i (f da db)
        = f (as.getD i da) (bs.getD i db) := by
  intro as
  induction as with
  | nil =>
    intro bs i h _
    simp at h
  | cons a as ih =>
    intro bs i h1 h2
    cases bs with
    | nil => simp at h2
    | cons b bs =>
      cases i with
      | zero => rfl
      | succ n =>
        simp only [List.zipWith_cons_cons, List.getD_cons_succ]
        exact ih bs n (by simpa using h1) (by simpa using h2)

/-- C7: the default mutation strategy adds one independently drawn,
symmetrically bounded noise sample to every cell of the matrix (not
just some rows): labels are preserved, the noise matrix has exactly one
entry per matrix cell, each entry is the seeded stream's own draw mapped
into `[-bound, bound]`, each mutated cell equals the original cell plus
its noise entry, and distinct cells consume distinct stream indices. -/
theorem default_mutation_uniform_noise (bound : ℚ) (seed k : Nat)
    (dm : DecisionMatrix) (lastRank : RankResult) (hb : 0 ≤ bound)
    (hwf : ∀ col ∈ dm.mtx, col.length = dm.alternatives.length) :
    (generate_mutations bound seed k dm lastRank).1.alternatives
        = dm.alternatives
    ∧ (generate_mutations bound seed k dm lastRank).1.minimize = dm.minimize
    ∧ (generate_mutations bound seed k dm lastRank).2.1.length = dm.mtx.length
    ∧ (∀ col ∈ (generate_mutations bound seed k dm lastRank).2.1,
        col.length = dm.alternatives.length)
    ∧ (∀ j i, j < dm.mtx.length → i < dm.alternatives.length →
        (((generate_mutations bound seed k dm lastRank).2.1.getD j []).getD i 0
            = symNoise bound
                (uniform01 seed (k + j * dm.alternatives.length + i)))
        ∧ |((generate_mutations bound seed k dm lastRank).2.1.getD j []).getD
              i 0| ≤ bound
        ∧ ((generate_mutations bound seed k dm lastRank).1.mtx.getD j []).getD
              i 0
            = (dm.mtx.getD j []).getD i 0
              + ((generate_mutations bound seed k dm lastRank).2.1.getD
                  j []).getD i 0)
    ∧ (∀ j₁ i₁ j₂ i₂, i₁ < dm.alternatives.length →
        i₂ < dm.alternatives.length →
        k + j₁ * dm.alternatives.length + i₁
          = k + j₂ * dm.alternatives.length + i₂ →
        j₁ = j₂ ∧ i₁ = i₂) := by
  have hcols : ∀ col ∈ (generate_mutations bound seed k dm lastRank).2.1,
      col.length = dm.alternatives.length := by
    intro col hcol
    have : col ∈ noiseMatrix bound seed k dm.alternatives.length
        dm.mtx.length := hcol
    simp only [noiseMatrix, List.mem_map] at this
    obtain ⟨j, _, rfl⟩ := this
    simp
  have hcell : ∀ j i, j < dm.mtx.length → i < dm.alternatives.length →
      ((generate_mutations bound seed k dm lastRank).2.1.getD j []).getD i 0
        = symNoise bound
            (uniform01 seed (k + j * dm.alternatives.length + i)) := by
    intro j i hj hi
    show ((noiseMatrix bound seed k dm.alternatives.length
        dm.mtx.length).getD j []).getD i 0 = _
    rw [noiseMatrix_col bound seed k dm.alternatives.length dm.mtx.length j hj]
    exact range_map_getD dm.alternatives.length i _ hi
  refine ⟨rfl, rfl, by simp [generate_mutations, noiseMatrix], hcols,
    ?_, ?_⟩
  · intro j i hj hi
    refine ⟨hcell j i hj hi, ?_, ?_⟩
    · rw [hcell j i hj hi]
      exact abs_symNoise_le hb (uniform01_nonneg _ _) (uniform01_lt_one _ _)
    · have hjn : j < (noiseMatrix bound seed k dm.alternatives.length
          dm.mtx.length).length := by
        simpa [noiseMatrix] using hj
      have hA : (dm.mtx.getD j []).length = dm.alternatives.length := by
        rw [List.getD_eq_getElem?_getD]
        rw [List.getElem?_eq_getElem hj]
        exact hwf _ (List.getElem_mem hj)
      have hB : ((noiseMatrix bound seed k dm.alternatives.length
          dm.mtx.length).getD j []).length = dm.alternatives.length := by
        rw [noiseMatrix_col bound seed k dm.alternatives.length
          dm.mtx.length j hj]
        simp
      have hmat := zipWith_getD (List.zipWith (· + · : ℚ → ℚ → ℚ)) [] []
        dm.mtx (noiseMatrix bound seed k dm.alternatives.length dm.mtx.length)
        j hj hjn
      have hmat2 : (List.zipWith (List.zipWith (· + ·)) dm.mtx
          (noiseMatrix bound seed k dm.alternatives.length
            dm.mtx.length)).getD j []
          = List.zipWith (· + ·) (dm.mtx.getD j [])
            ((noiseMatrix bound seed k dm.alternatives.length
              dm.mtx.length).getD j []) := by
        simpa using hmat
      have hiA : i < (dm.mtx.getD j []).length := by
        rw [hA]
        exact hi
      have hiB : i < ((noiseMatrix bound seed k dm.alternatives.length
          dm.mtx.length).getD j []).length := by
        rw [hB]
        exact hi
      have hcol := zipWith_getD (· + · : ℚ → ℚ → ℚ) 0 0
        (dm.mtx.getD j [])
        ((noiseMatrix bound seed k dm.alternatives.length
          dm.mtx.length).getD j [])
        i hiA hiB
      have hcol2 : (List.zipWith (· + ·) (dm.mtx.getD j [])
          ((noiseMatrix bound seed k dm.alternatives.length
            dm.mtx.length).getD j [])).getD i 0
          = (dm.mtx.getD j []).getD i 0
            + ((noiseMatrix bound seed k dm.alternatives.length
              dm.mtx.length).getD j []).getD i 0 := by
        simpa using hcol
      have hgm : (generate_mutations bound seed k dm lastRank).1.mtx
          = List.zipWith (List.zipWith (· + ·)) dm.mtx
              (noiseMatrix bound seed k dm.alternatives.length
                dm.mtx.length) := rfl
      rw [hgm, hmat2]
      exact hcol2
  · intro j₁ i₁ j₂ i₂ h1 h2 heq
    have hn : 0 < dm.alternatives.length := Nat.lt_of_le_of_lt (Nat.zero_le i₁) h1
    have heq2 : j₁ * dm.alternatives.length + i₁
        = j₂ * dm.alternatives.length + i₂ := by omega
    have m1 : (j₁ * dm.alternatives.length + i₁) % dm.alternatives.length
        = i₁ := by
      rw [Nat.mul_comm j₁ dm.alternatives.length, Nat.mul_add_mod,
        Nat.mod_eq_of_lt h1]
    have m2 : (j₂ * dm.alternatives.length + i₂) % dm.alternatives.length
        = i₂ := by
      rw [Nat.mul_comm j₂ dm.alternatives.length, Nat.mul_add_mod,
        Nat.mod_eq_of_lt h2]
    have hi12 : i₁ = i₂ := by rw [← m1, ← m2, heq2]
    have d1 : (j₁ * dm.alternatives.length + i₁) / dm.alternatives.length
        = j₁ := by
      rw [Nat.mul_comm j₁ dm.alternatives.length, Nat.mul_add_div hn,
        Nat.div_eq_of_lt h1, Nat.add_zero]
    have d2 : (j₂ * dm.alternatives.length + i₂) / dm.alternatives.length
        = j₂ := by
      rw [Nat.mul_comm j₂ dm.alternatives.length, Nat.mul_add_div hn,
        Nat.div_eq_of_lt h2, Nat.add_zero]
    have hj12 : j₁ = j₂ := by rw [← d1, ← d2, heq2]
    exact ⟨hj12, hi12⟩

/-- C7 witness: a concrete one-cell matrix with bound 1 and seed 42
keeps its labels under the default mutation strategy. -/
theorem default_mutation_uniform_noise_witness :
    (generate_mutations 1 42 0
        { alternatives := ["A"], mtx := [[5]], minimize := [false] }
        default).1.alternatives = ["A"]
    ∧ (generate_mutations 1 42 0
        { alternatives := ["A"], mtx := [[5]], minimize := [false] }
        default).2.1.length = 1 := by
  have h := default_mutation_uniform_noise 1 42 0
    { alternatives := ["A"], mtx := [[5]], minimize := [false] } default
    (by norm_num) (by decide)
  exact ⟨h.1, h.2.2.1⟩
